import Mathlib

/-
Verification of the TIFF-tile-to-JPEG2000-tile transcoding engine
(`glymur/tiff.py`, class `Tiff2Jp2k`, method `run`).

The embedding models the code of `Tiff2Jp2k.run` directly.  The libtiff
wrapper (`glymur.lib.tiff`) and the JPEG2000 writer (`Jp2k`) are external
collaborators; the few operations `run` uses from them are modelled from the
specification (each such definition carries a doc comment starting with
"Modelled from the spec:").  Machine integers are `Nat`: every quantity in
the transcoding logic (dimensions, tile sizes, indices) is non-negative and
far from any overflow boundary, and Python integers are unbounded anyway.
-/

namespace Glymur

/-- The TIFF SampleFormat enumeration as used by `run`
(`libtiff.SampleFormat`); `run` only compares against the unsigned-integer
variant. -/
inductive SampleFormat where
  | uint
  | int
  | ieeefp
deriving DecidableEq

/-- The source TIFF as seen by `Tiff2Jp2k.run`: the fields it reads
(tiff.py lines 34-44), the two capability predicates, and the pixel data.
`pixel r c s` is the sample `s` of the image pixel at row `r`, column `c`;
`rgba r c s` is what the whole-image RGBA read returns at that position. -/
structure TiffSource where
  isTiled : Bool
  imagewidth : Nat
  imageheight : Nat
  spp : Nat
  sf : SampleFormat
  bps : Nat
  tw : Nat
  th : Nat
  rgbaOK : Bool
  pixel : Nat → Nat → Nat → Nat
  rgba : Nat → Nat → Nat → Nat

/-- Modelled from the spec: the source `TileGrid` column count,
`colCount = ceil(width/tileWidth)` (spec section 3, `TileGrid`).  This is the
tile grid used by the external tiled-TIFF reader (`glymur.lib.tiff`, not under
`src/`). -/
def tiffTileCols (t : TiffSource) : Nat :=
  (t.imagewidth + t.tw - 1) / t.tw

/-- Modelled from the spec: the source reader's pixel-coordinate-to-tile-index
mapping (`libtiff.computeTile`).  Spec section 3, `TileCoordinate`: row-major
linear index = row*colCount + col, where the enclosing tile of pixel `(y, x)`
has row `y / tileHeight` and column `x / tileWidth`. -/
def computeTile (t : TiffSource) (x y : Nat) : Nat :=
  (y / t.th) * tiffTileCols t + x / t.tw

/-- Modelled from the spec: the source reader's per-tile-index decode operation
(`libtiff.readEncodedTile`).  Spec sections 3 and 6: tile `n` has origin pixel
`(row*tileHeight, col*tileWidth)` with `row = n / colCount`,
`col = n % colCount`, and the decode returns the buffer of shape
(tileHeight, tileWidth, samplesPerPixel) holding the source samples of that
tile's footprint. -/
def readTile (t : TiffSource) (n : Nat) : Nat → Nat → Nat → Nat :=
  fun r c s =>
    t.pixel (n / tiffTileCols t * t.th + r) (n % tiffTileCols t * t.tw + c) s

/-- An emitted whole image: its shape (height, width, channel count) together
with the sample data, as handed to `Jp2k(self.jp2_filename, data=image)`. -/
structure WholeImage where
  height : Nat
  width : Nat
  channels : Nat
  data : Nat → Nat → Nat → Nat

/-- Modelled from the spec: `libtiff.readRGBAImageOriented` performs a
whole-image oriented read with alpha compositing; the returned buffer always
has 4 channels (RGBA) and the image's dimensions. -/
def readRGBAImageOriented (t : TiffSource) : WholeImage :=
  { height := t.imageheight, width := t.imagewidth, channels := 4,
    data := t.rgba }

/-- Strategy 1 body (tiff.py lines 51-56): read the whole image; when
`spp < 4`, keep only the first three channels (`image = image[:, :, :3]`,
which keeps `min 3 channels` channels); emit the result. -/
def strategy1 (t : TiffSource) : WholeImage :=
  let image := readRGBAImageOriented t
  if t.spp < 4 then { image with channels := min 3 image.channels } else image

/-- A destination tile buffer: row, column, sample to sample value. -/
def TileBuf : Type := Nat → Nat → Nat → Nat

/-- Modelled from the spec: the destination writer (`jp2.get_tilewriters()`)
iterates one tile writer per destination tile in row-major order, so the
number of destination tiles is rowCount*colCount with
`rowCount = ceil(height/tileHeight)`, `colCount = ceil(width/tileWidth)`
(spec sections 3 and 6). -/
def numDestTiles (h w jth jtw : Nat) : Nat :=
  ((h + jth - 1) / jth) * ((w + jtw - 1) / jtw)

/-- Strategy 2 body (tiff.py lines 58-75): the destination tile grid equals
the source tile grid; for each destination tile index `idx`, read source tile
`idx` into the scratch buffer and emit it unchanged. -/
def strategy2 (t : TiffSource) : List TileBuf :=
  (List.range (numDestTiles t.imageheight t.imagewidth t.th t.tw)).map
    (readTile t)

/-- Python `range(a, b, step)` for positive `step`, as the list
`[a, a + step, a + 2*step, ...)` of values below `b`. -/
def pyRange (a b step : Nat) : List Nat :=
  (List.range ((b - a + step - 1) / step)).map fun i => a + i * step

/-- The errors `run` can raise: `NotImplementedError` for a striped source
(tiff.py line 36), and the re-raised `ValueError` of the copy-region
shape-mismatch handler (tiff.py lines 154-158). -/
inductive RunError where
  | notTiled
  | copyRegionMismatch
deriving DecidableEq

/-- The scan of source anchor coordinates for one destination tile
(tiff.py lines 119-120):
`for y in range(julr, min(julr + jth, imageheight), th)` and
`for x in range(julc, min(julc + jtw, imagewidth), tw)`, outer rows, inner
columns. -/
def scanList (t : TiffSource) (jth jtw julr julc : Nat) : List (Nat × Nat) :=
  (pyRange julr (min (julr + jth) t.imageheight) t.th).flatMap fun y =>
    (pyRange julc (min (julc + jtw) t.imagewidth) t.tw).map fun x => (y, x)

/-- tiff.py lines 121-123: `tilenum = libtiff.computeTile(self.tiff_fp, x, y,
0, 0)` for the scanned anchor `(y, x)`. -/
def tilenum (t : TiffSource) (y x : Nat) : Nat := computeTile t x y

/-- tiff.py lines 127-134: `tiff_tile_row = tilenum // num_tiff_tile_cols`
and the upper-left row of that TIFF tile, `tulr = tiff_tile_row * th`, with
`num_tiff_tile_cols = imagewidth // tw`. -/
def tulr (t : TiffSource) (y x : Nat) : Nat :=
  tilenum t y x / (t.imagewidth / t.tw) * t.th

/-- tiff.py lines 127-136: `tiff_tile_col = tilenum % num_tiff_tile_cols`
and the upper-left column of that TIFF tile, `tulc = tiff_tile_col * tw`. -/
def tulc (t : TiffSource) (y x : Nat) : Nat :=
  tilenum t y x % (t.imagewidth / t.tw) * t.tw

/-- tiff.py line 141: `ulr = max(julr, tulr)`. -/
def ulr (t : TiffSource) (julr y x : Nat) : Nat := max julr (tulr t y x)

/-- tiff.py line 142: `llr = min(julr + jth, tulr + th)`. -/
def llr (t : TiffSource) (jth julr y x : Nat) : Nat :=
  min (julr + jth) (tulr t y x + t.th)

/-- tiff.py line 144: `ulc = max(julc, tulc)`. -/
def ulc (t : TiffSource) (julc y x : Nat) : Nat := max julc (tulc t y x)

/-- tiff.py line 145: `urc = min(julc + jtw, tulc + tw)`. -/
def urc (t : TiffSource) (jtw julc y x : Nat) : Nat :=
  min (julc + jtw) (tulc t y x + t.tw)

/-- One copy step of the regridding loop (tiff.py lines 121-158): decode the
source tile containing `(x, y)`, intersect its footprint with the destination
tile in image coordinates (`ulr`/`llr`/`ulc`/`urc`), convert the intersection
to the two local coordinate frames with the source's `%`-arithmetic (the
slices of tiff.py lines 147-152), and copy the sub-rectangle.  A shape
mismatch between the two local sub-rectangles is the `except ValueError`
branch (re-raised after the `breakpoint()`).  `llr - 1` and `urc - 1` use
`Nat` subtraction; `llr` and `urc` are positive whenever the tile sizes are,
so this agrees with Python there. -/
def regridStep (t : TiffSource) (jth jtw julr julc : Nat)
    (buf : TileBuf) (yx : Nat × Nat) : Except RunError TileBuf :=
  match yx with
  | (y, x) =>
    let jr0 := ulr t julr y x % jth
    let jr1 := (llr t jth julr y x - 1) % jth + 1
    let jc0 := ulc t julc y x % jtw
    let jc1 := (urc t jtw julc y x - 1) % jtw + 1
    let tr0 := ulr t julr y x % t.th
    let tr1 := (llr t jth julr y x - 1) % t.th + 1
    let tc0 := ulc t julc y x % t.tw
    let tc1 := (urc t jtw julc y x - 1) % t.tw + 1
    if jr1 - jr0 = tr1 - tr0 ∧ jc1 - jc0 = tc1 - tc0 then
      .ok fun r c s =>
        if jr0 ≤ r ∧ r < jr1 ∧ jc0 ≤ c ∧ c < jc1 then
          readTile t (tilenum t y x) (tr0 + (r - jr0)) (tc0 + (c - jc0)) s
        else buf r c s
    else .error .copyRegionMismatch

/-- Assembly of one destination tile (tiff.py lines 107-158): locate the
destination tile's origin from its row-major index and fold the copy step
over the scan, starting from the current contents of the reused scratch
buffer `jp2k_tile`. -/
def assembleInto (t : TiffSource) (jth jtw idx : Nat) (buf : TileBuf) :
    Except RunError TileBuf :=
  let numJp2kTileCols := t.imagewidth / jtw
  let julr := idx / numJp2kTileCols * jth
  let julc := idx % numJp2kTileCols * jtw
  (scanList t jth jtw julr julc).foldlM (regridStep t jth jtw julr julc) buf

/-- The destination-tile loop of strategy 3 (tiff.py lines 112-160): the
scratch buffer `jp2k_tile` is allocated once and reused across destination
tiles, so each iteration starts from the previous tile's contents; the
emitted tile is the buffer's contents after assembly (`tilewriter[:] =
jp2k_tile` copies the values out). -/
def strategy3Loop (t : TiffSource) (jth jtw : Nat) :
    List Nat → TileBuf → Except RunError (List TileBuf)
  | [], _ => .ok []
  | idx :: rest, buf => do
    let buf' ← assembleInto t jth jtw idx buf
    let outs ← strategy3Loop t jth jtw rest buf'
    pure (buf' :: outs)

/-- Strategy 3 body (tiff.py lines 77-160): destination tiles in row-major
order, scratch buffer initialised to `np.zeros`. -/
def strategy3 (t : TiffSource) (jth jtw : Nat) : Except RunError (List TileBuf) :=
  strategy3Loop t jth jtw
    (List.range (numDestTiles t.imageheight t.imagewidth jth jtw))
    (fun _ _ _ => 0)

/-- The sample that strategy 3's output assigns to local position `(r, c, s)`
of the destination tile at grid position `(jrow, jcol)`; `none` when the
strategy raised. -/
def regridResultPx (t : TiffSource) (jth jtw jrow jcol r c s : Nat) : Option Nat :=
  (strategy3 t jth jtw).toOption.map fun tiles =>
    tiles.getD (jrow * (t.imagewidth / jtw) + jcol) (fun _ _ _ => 0) r c s

/-- The first guard of the if/elif chain (tiff.py lines 46-50). -/
def guard1 (t : TiffSource) : Bool :=
  decide (t.imagewidth < t.tw) && decide (t.imageheight < t.th) && t.rgbaOK

/-- The second guard of the if/elif chain (tiff.py lines 58-64). -/
def guard2 (t : TiffSource) (tilesize : Option (Nat × Nat)) : Bool :=
  decide (t.imagewidth % t.tw = 0) && decide (t.imageheight % t.th = 0) &&
    decide (t.bps = 8) && decide (t.sf = SampleFormat.uint) && tilesize.isNone

/-- The third guard of the if/elif chain (tiff.py lines 77-85). -/
def guard3 (t : TiffSource) (tilesize : Option (Nat × Nat)) : Bool :=
  match tilesize with
  | none => false
  | some (jth, jtw) =>
    decide (t.imagewidth % t.tw = 0) && decide (t.imageheight % t.th = 0) &&
      decide (t.bps = 8) && decide (t.sf = SampleFormat.uint) &&
      decide (t.imageheight % jth = 0) && decide (t.imagewidth % jtw = 0)

/-- The three transcoding strategies. -/
inductive Strategy where
  | whole
  | identity
  | regrid
deriving DecidableEq

/-- The strategy chosen by `run`'s if/elif chain, `none` when no branch
matches (there is no `else`: `run` then returns without writing anything). -/
def selectStrategy (t : TiffSource) (tilesize : Option (Nat × Nat)) :
    Option Strategy :=
  if guard1 t then some .whole
  else if guard2 t tilesize then some .identity
  else if guard3 t tilesize then some .regrid
  else none

/-- What `run` wrote to the destination.  `nothing` records the fall-through
where no branch of the if/elif chain matched and `run` returned without
creating any output. -/
inductive RunOutput where
  | whole (img : WholeImage)
  | tiled (tileShape : Nat × Nat) (tiles : List TileBuf)
  | nothing

/-- `Tiff2Jp2k.run` (tiff.py lines 33-160). -/
def run (t : TiffSource) (tilesize : Option (Nat × Nat)) :
    Except RunError RunOutput :=
  if !t.isTiled then .error .notTiled
  else if guard1 t then .ok (.whole (strategy1 t))
  else if guard2 t tilesize then .ok (.tiled (t.th, t.tw) (strategy2 t))
  else
    match tilesize with
    | some (jth, jtw) =>
      if guard3 t tilesize then
        (strategy3 t jth jtw).map (RunOutput.tiled (jth, jtw))
      else .ok .nothing
    | none => .ok .nothing

/-- The source tile indices visited by the scan of one destination tile, in
scan order (the successive values of `tilenum`, tiff.py lines 121-123). -/
def scannedTiles (t : TiffSource) (jth jtw julr julc : Nat) : List Nat :=
  (scanList t jth jtw julr julc).map fun yx => computeTile t yx.2 yx.1

/-- The footprint of source tile `n` (rows `[row*th, row*th + th)`, columns
`[col*tw, col*tw + tw)` with `row = n / (imagewidth / tw)`,
`col = n % (imagewidth / tw)`, the decomposition the code uses at
tiff.py lines 127-136) intersects the pixel rectangle
`[julr, julr + jth) x [julc, julc + jtw)`. -/
def tileIntersects (t : TiffSource) (n jth jtw julr julc : Nat) : Prop :=
  julr < n / (t.imagewidth / t.tw) * t.th + t.th ∧
  n / (t.imagewidth / t.tw) * t.th < julr + jth ∧
  julc < n % (t.imagewidth / t.tw) * t.tw + t.tw ∧
  n % (t.imagewidth / t.tw) * t.tw < julc + jtw

instance (t : TiffSource) (n jth jtw julr julc : Nat) :
    Decidable (tileIntersects t n jth jtw julr julc) := by
  unfold tileIntersects; infer_instance

/-- Image pixel `(pr, pc)` lies in the footprint of the source tile that
contains pixel `(y, x)` — equivalently, in the intersection rectangle of that
source tile with any destination tile containing both pixels. -/
def coversPx (t : TiffSource) (y x pr pc : Nat) : Prop :=
  y / t.th * t.th ≤ pr ∧ pr < y / t.th * t.th + t.th ∧
  x / t.tw * t.tw ≤ pc ∧ pc < x / t.tw * t.tw + t.tw

instance (t : TiffSource) (y x pr pc : Nat) :
    Decidable (coversPx t y x pr pc) := by
  unfold coversPx; infer_instance

end Glymur

namespace Glymur

/- ## Generalities about `pyRange` and the scan -/

theorem pyRange_mem_iff {a b s y : Nat} :
    y ∈ pyRange a b s ↔ ∃ i < (b - a + s - 1) / s, a + i * s = y := by
  simp [pyRange]

theorem pyRange_mem_of {a b s : Nat} (i : Nat) (hi : i < (b - a + s - 1) / s) :
    a + i * s ∈ pyRange a b s :=
  pyRange_mem_iff.mpr ⟨i, hi, rfl⟩

theorem pyRange_bounds {a b s y : Nat} (hs : 0 < s) (hy : y ∈ pyRange a b s) :
    a ≤ y ∧ y < b := by
  obtain ⟨i, hi, rfl⟩ := pyRange_mem_iff.mp hy
  have h2 : (i + 1) * s ≤ b - a + s - 1 := (Nat.le_div_iff_mul_le hs).mp hi
  have h3 : (i + 1) * s = i * s + s := by ring
  omega

theorem scanList_mem_iff {t : TiffSource} {jth jtw julr julc y x : Nat} :
    (y, x) ∈ scanList t jth jtw julr julc ↔
      y ∈ pyRange julr (min (julr + jth) t.imageheight) t.th ∧
      x ∈ pyRange julc (min (julc + jtw) t.imagewidth) t.tw := by
  constructor
  · intro h
    obtain ⟨y', hy', hx'⟩ := List.mem_flatMap.mp h
    obtain ⟨x', hx'mem, hpair⟩ := List.mem_map.mp hx'
    obtain ⟨rfl, rfl⟩ : y' = y ∧ x' = x := by
      refine ⟨?_, ?_⟩ <;> cases hpair <;> rfl
    exact ⟨hy', hx'mem⟩
  · rintro ⟨hy, hx⟩
    exact List.mem_flatMap.mpr ⟨y, hy, List.mem_map.mpr ⟨x, hx, rfl⟩⟩

theorem mod_eq_sub_of_between {a q d : Nat} (h1 : q * d ≤ a)
    (h2 : a < q * d + d) : a % d = a - q * d := by
  have h3 : a - q * d < d := by omega
  calc a % d = (a - q * d + q * d) % d := by rw [Nat.sub_add_cancel h1]
    _ = (a - q * d) % d := by rw [Nat.add_mul_mod_self_right]
    _ = a - q * d := Nat.mod_eq_of_lt h3

theorem ceil_div_eq {w d : Nat} (hd : 0 < d) (hdvd : d ∣ w) :
    (w + d - 1) / d = w / d := by
  obtain ⟨k, rfl⟩ := hdvd
  have h1 : d * k + d - 1 = d * k + (d - 1) := by omega
  rw [h1, Nat.mul_add_div hd, Nat.div_eq_of_lt (by omega),
    Nat.mul_div_cancel_left _ hd, Nat.add_zero]

theorem tiffTileCols_eq {t : TiffSource} (htw : 0 < t.tw)
    (hdvd : t.tw ∣ t.imagewidth) : tiffTileCols t = t.imagewidth / t.tw :=
  ceil_div_eq htw hdvd

/- ## Claim C3: channel handling of the whole-image strategy -/

/-- A source on which strategy 1 fires with four samples per pixel. -/
def srcAlpha : TiffSource :=
  { isTiled := true, imagewidth := 64, imageheight := 64, spp := 4,
    sf := .uint, bps := 8, tw := 128, th := 128, rgbaOK := true,
    pixel := fun r c _ => r + c, rgba := fun r c _ => r + c }

/-- A source on which strategy 1 fires with three samples per pixel. -/
def srcRGB : TiffSource :=
  { isTiled := true, imagewidth := 64, imageheight := 64, spp := 3,
    sf := .uint, bps := 8, tw := 128, th := 128, rgbaOK := true,
    pixel := fun r c _ => r + c, rgba := fun r c _ => r + c }

/-- C3 is false on the code: with `spp = 4` strategy 1 emits all 4 channels of
the RGBA read buffer (not 3), and with `spp = 3` it truncates the 4-channel
read buffer (so the read buffer is not emitted unchanged): the `spp < 4` test
at tiff.py line 53 runs the truncation in exactly the opposite case from the
claim. -/
theorem strategy1_channels_counterexample :
    (4 ≤ srcAlpha.spp ∧ (strategy1 srcAlpha).channels ≠ 3) ∧
    (srcRGB.spp ≤ 3 ∧
      (strategy1 srcRGB).channels ≠ (readRGBAImageOriented srcRGB).channels) := by
  decide

/-- C3 (amended): strategy 1 reads a 4-channel RGBA whole-image buffer; when
`spp < 4` it drops the channels beyond the first 3 (emitting exactly 3), and
when `spp ≥ 4` it emits the read buffer unchanged with its 4 channels; the
sample data and dimensions are never modified (tiff.py lines 51-56). -/
theorem strategy1_channels (t : TiffSource) :
    (strategy1 t).channels = (if t.spp < 4 then 3 else 4) ∧
    (strategy1 t).data = (readRGBAImageOriented t).data ∧
    (strategy1 t).height = t.imageheight ∧
    (strategy1 t).width = t.imagewidth := by
  by_cases h : t.spp < 4 <;>
    simp [strategy1, readRGBAImageOriented, h]

/- ## Claim C4: fall-through of the strategy selector -/

/-- A tiled, evenly tiled source with 16-bit samples: it matches none of the
three strategy guards. -/
def src16 : TiffSource :=
  { isTiled := true, imagewidth := 512, imageheight := 512, spp := 3,
    sf := .uint, bps := 16, tw := 128, th := 128, rgbaOK := false,
    pixel := fun r c _ => r + c, rgba := fun r c _ => r + c }

/-- C4 fails on the code: the if/elif chain of `run` has no `else`
(tiff.py lines 46-160), so a tiled source matching none of the three guards
makes `run` return silently — no output is written and no error is raised,
where the specification demands an unsupported-raster-configuration error. -/
theorem run_silent_fallthrough :
    src16.isTiled = true ∧ guard1 src16 = false ∧ guard2 src16 none = false ∧
      guard3 src16 none = false ∧ run src16 none = .ok RunOutput.nothing :=
  ⟨rfl, by decide, by decide, rfl, rfl⟩

/- ## Claim C5: identity tile copy -/

/-- C5: under strategy 2 the destination tile grid is the source tile grid and
the buffer emitted at index `idx` is exactly the decoded source tile `idx`:
its samples are the source pixels of tile `idx`'s footprint, unrearranged, and
tiles are emitted in index order (tiff.py lines 66-75). -/
theorem strategy2_identity (t : TiffSource) (idx : Nat)
    (h : idx < numDestTiles t.imageheight t.imagewidth t.th t.tw) :
    (strategy2 t)[idx]? = some (readTile t idx) ∧
    ∀ r c s, readTile t idx r c s =
      t.pixel (idx / tiffTileCols t * t.th + r)
        (idx % tiffTileCols t * t.tw + c) s := by
  constructor
  · simp [strategy2, h]
  · intro r c s; rfl

/-- A small evenly tiled 8-bit source (4x4 image, 2x2 tiles). -/
def srcTiled : TiffSource :=
  { isTiled := true, imagewidth := 4, imageheight := 4, spp := 1,
    sf := .uint, bps := 8, tw := 2, th := 2, rgbaOK := false,
    pixel := fun r c _ => 10 * r + c, rgba := fun _ _ _ => 0 }

theorem strategy2_identity_witness :
    3 < numDestTiles srcTiled.imageheight srcTiled.imagewidth
        srcTiled.th srcTiled.tw ∧
    ((strategy2 srcTiled)[3]? = some (readTile srcTiled 3) ∧
      ∀ r c s, readTile srcTiled 3 r c s =
        srcTiled.pixel (3 / tiffTileCols srcTiled * srcTiled.th + r)
          (3 % tiffTileCols srcTiled * srcTiled.tw + c) s) :=
  ⟨by decide, strategy2_identity srcTiled 3 (by decide)⟩

/- ## Claim C9: striped sources are rejected first -/

/-- C9: a striped (non-tiled) source makes `run` fail with the
unsupported-layout error (`NotImplementedError`, tiff.py lines 35-36); the
check is the first statement of `run`, so no geometry is read and no
destination output of any kind is produced, whatever the requested tile
size. -/
theorem run_striped_rejected (t : TiffSource) (tilesize : Option (Nat × Nat))
    (h : t.isTiled = false) : run t tilesize = .error .notTiled := by
  simp [run, h]

/-- A striped source (the tile-related fields hold libtiff defaults; `run`
never reaches them). -/
def srcStriped : TiffSource :=
  { isTiled := false, imagewidth := 512, imageheight := 512, spp := 3,
    sf := .uint, bps := 8, tw := 0, th := 0, rgbaOK := false,
    pixel := fun r c _ => r + c, rgba := fun r c _ => r + c }

theorem run_striped_rejected_witness :
    srcStriped.isTiled = false ∧
      run srcStriped (some (64, 64)) = .error .notTiled :=
  ⟨rfl, run_striped_rejected srcStriped (some (64, 64)) rfl⟩

end Glymur

namespace Glymur

/- ## Claim C6: strategy selection -/

theorem guard1_iff (t : TiffSource) :
    guard1 t = true ↔
      t.imagewidth < t.tw ∧ t.imageheight < t.th ∧ t.rgbaOK = true := by
  simp [guard1, Bool.and_eq_true, decide_eq_true_eq, and_assoc]

theorem guard2_iff (t : TiffSource) (tilesize : Option (Nat × Nat)) :
    guard2 t tilesize = true ↔
      t.imagewidth % t.tw = 0 ∧ t.imageheight % t.th = 0 ∧ t.bps = 8 ∧
        t.sf = SampleFormat.uint ∧ tilesize = none := by
  simp [guard2, Bool.and_eq_true, decide_eq_true_eq, and_assoc,
    Option.isNone_iff_eq_none]

theorem guard3_iff (t : TiffSource) (tilesize : Option (Nat × Nat)) :
    guard3 t tilesize = true ↔
      ∃ jth jtw, tilesize = some (jth, jtw) ∧
        t.imagewidth % t.tw = 0 ∧ t.imageheight % t.th = 0 ∧ t.bps = 8 ∧
        t.sf = SampleFormat.uint ∧ t.imageheight % jth = 0 ∧
        t.imagewidth % jtw = 0 := by
  match tilesize with
  | none => simp [guard3]
  | some (a, b) =>
    simp only [guard3, Bool.and_eq_true, decide_eq_true_eq, and_assoc,
      Option.some.injEq, Prod.mk.injEq]
    constructor
    · rintro ⟨h1, h2, h3, h4, h5, h6⟩
      exact ⟨a, b, rfl, rfl, h1, h2, h3, h4, h5, h6⟩
    · rintro ⟨jth, jtw, rfl, rfl, h⟩
      exact h

/-- C6: strategy selection is a first-match-wins decision with exactly the
stated guards (tiff.py lines 46, 58, 77): strategy 1 iff the source tile is
larger than the image in both axes and the whole-image-with-alpha read is
available; otherwise strategy 2 iff the image is evenly divided by the source
tiles, samples are 8-bit unsigned, and no destination tile size was
requested; otherwise strategy 3 iff a destination tile size was requested,
the source-tile conditions hold, and the requested size evenly divides the
image in both axes. -/
theorem selectStrategy_guards (t : TiffSource) (tilesize : Option (Nat × Nat)) :
    (selectStrategy t tilesize = some .whole ↔
      t.imagewidth < t.tw ∧ t.imageheight < t.th ∧ t.rgbaOK = true) ∧
    (selectStrategy t tilesize = some .identity ↔
      ¬(t.imagewidth < t.tw ∧ t.imageheight < t.th ∧ t.rgbaOK = true) ∧
      t.imagewidth % t.tw = 0 ∧ t.imageheight % t.th = 0 ∧ t.bps = 8 ∧
      t.sf = SampleFormat.uint ∧ tilesize = none) ∧
    (selectStrategy t tilesize = some .regrid ↔
      ¬(t.imagewidth < t.tw ∧ t.imageheight < t.th ∧ t.rgbaOK = true) ∧
      ∃ jth jtw, tilesize = some (jth, jtw) ∧
        t.imagewidth % t.tw = 0 ∧ t.imageheight % t.th = 0 ∧ t.bps = 8 ∧
        t.sf = SampleFormat.uint ∧ t.imageheight % jth = 0 ∧
        t.imagewidth % jtw = 0) := by
  have hg1f : guard1 t = false ↔
      ¬(t.imagewidth < t.tw ∧ t.imageheight < t.th ∧ t.rgbaOK = true) := by
    rw [← guard1_iff]
    cases guard1 t <;> simp
  have c1 : selectStrategy t tilesize = some Strategy.whole ↔
      guard1 t = true := by
    unfold selectStrategy
    cases h1 : guard1 t <;> cases h2 : guard2 t tilesize <;>
      cases h3 : guard3 t tilesize <;> simp
  have c2 : selectStrategy t tilesize = some Strategy.identity ↔
      guard1 t = false ∧ guard2 t tilesize = true := by
    unfold selectStrategy
    cases h1 : guard1 t <;> cases h2 : guard2 t tilesize <;>
      cases h3 : guard3 t tilesize <;> simp
  have c3 : selectStrategy t tilesize = some Strategy.regrid ↔
      guard1 t = false ∧ guard2 t tilesize = false ∧
        guard3 t tilesize = true := by
    unfold selectStrategy
    cases h1 : guard1 t <;> cases h2 : guard2 t tilesize <;>
      cases h3 : guard3 t tilesize <;> simp
  refine ⟨by rw [c1, guard1_iff], by rw [c2, hg1f, guard2_iff], ?_⟩
  rw [c3, hg1f, guard3_iff]
  constructor
  · rintro ⟨hp1, -, hq⟩
    exact ⟨hp1, hq⟩
  · rintro ⟨hp1, hq⟩
    refine ⟨hp1, ?_, hq⟩
    obtain ⟨jth, jtw, heq, -⟩ := hq
    cases h2 : guard2 t tilesize
    · rfl
    · obtain ⟨-, -, -, -, hnone⟩ := (guard2_iff t tilesize).mp h2
      rw [hnone] at heq
      cases heq

end Glymur

namespace Glymur

/- ## Geometry of one regridding copy step -/

set_option maxHeartbeats 1600000 in
/-- Arithmetic description of one copy step at a scanned anchor `(y, x)`:
the step always succeeds (the two local sub-rectangles have equal shape,
both being the intersection's shape), and the updated buffer holds, at each
destination-local position inside the intersection, the source pixel of the
corresponding image coordinate, and the previous contents elsewhere. -/
theorem regridStep_ok (t : TiffSource) (jth jtw jrow jcol y x : Nat)
    (buf : TileBuf)
    (hth : 0 < t.th) (htw : 0 < t.tw) (hw : t.tw ∣ t.imagewidth)
    (hy1 : jrow * jth ≤ y) (hy2 : y < jrow * jth + jth)
    (hx1 : jcol * jtw ≤ x) (hx2 : x < jcol * jtw + jtw)
    (hxw : x < t.imagewidth) :
    ∃ b : TileBuf,
      regridStep t jth jtw (jrow * jth) (jcol * jtw) buf (y, x) = .ok b ∧
      ∀ r c s, r < jth → c < jtw →
        b r c s =
          if coversPx t y x (jrow * jth + r) (jcol * jtw + c) then
            t.pixel (jrow * jth + r) (jcol * jtw + c) s
          else buf r c s := by
  have hncols : tiffTileCols t = t.imagewidth / t.tw := tiffTileCols_eq htw hw
  have hxcol : x / t.tw < t.imagewidth / t.tw :=
    Nat.div_lt_div_of_lt_of_dvd hw hxw
  have hnpos : 0 < t.imagewidth / t.tw := lt_of_le_of_lt (Nat.zero_le _) hxcol
  have htile : tilenum t y x = y / t.th * (t.imagewidth / t.tw) + x / t.tw := by
    rw [tilenum, computeTile, hncols]
  have eT : tulr t y x = y / t.th * t.th := by
    rw [tulr, htile, Nat.add_comm, Nat.add_mul_div_right _ _ hnpos,
      Nat.div_eq_of_lt hxcol, Nat.zero_add]
  have eC : tulc t y x = x / t.tw * t.tw := by
    rw [tulc, htile, Nat.add_comm, Nat.add_mul_mod_self_right,
      Nat.mod_eq_of_lt hxcol]
  have hyt1 : y / t.th * t.th ≤ y := Nat.div_mul_le_self y t.th
  have hyt2 : y < y / t.th * t.th + t.th := by
    have hdm := Nat.div_add_mod y t.th
    have hml := Nat.mod_lt y hth
    have hcm : t.th * (y / t.th) = y / t.th * t.th := Nat.mul_comm _ _
    omega
  have hxt1 : x / t.tw * t.tw ≤ x := Nat.div_mul_le_self x t.tw
  have hxt2 : x < x / t.tw * t.tw + t.tw := by
    have hdm := Nat.div_add_mod x t.tw
    have hml := Nat.mod_lt x htw
    have hcm : t.tw * (x / t.tw) = x / t.tw * t.tw := Nat.mul_comm _ _
    omega
  have hU : ulr t (jrow * jth) y x = max (jrow * jth) (y / t.th * t.th) := by
    rw [ulr, eT]
  have hL : llr t jth (jrow * jth) y x
      = min (jrow * jth + jth) (y / t.th * t.th + t.th) := by
    rw [llr, eT]
  have hUc : ulc t (jcol * jtw) y x = max (jcol * jtw) (x / t.tw * t.tw) := by
    rw [ulc, eC]
  have hRc : urc t jtw (jcol * jtw) y x
      = min (jcol * jtw + jtw) (x / t.tw * t.tw + t.tw) := by
    rw [urc, eC]
  have m1 : ulr t (jrow * jth) y x % jth = ulr t (jrow * jth) y x - jrow * jth :=
    mod_eq_sub_of_between (by omega) (by omega)
  have m2 : (llr t jth (jrow * jth) y x - 1) % jth
      = llr t jth (jrow * jth) y x - 1 - jrow * jth :=
    mod_eq_sub_of_between (by omega) (by omega)
  have m3 : ulr t (jrow * jth) y x % t.th
      = ulr t (jrow * jth) y x - y / t.th * t.th :=
    mod_eq_sub_of_between (q := y / t.th) (by omega) (by omega)
  have m4 : (llr t jth (jrow * jth) y x - 1) % t.th
      = llr t jth (jrow * jth) y x - 1 - y / t.th * t.th :=
    mod_eq_sub_of_between (q := y / t.th) (by omega) (by omega)
  have m5 : ulc t (jcol * jtw) y x % jtw = ulc t (jcol * jtw) y x - jcol * jtw :=
    mod_eq_sub_of_between (by omega) (by omega)
  have m6 : (urc t jtw (jcol * jtw) y x - 1) % jtw
      = urc t jtw (jcol * jtw) y x - 1 - jcol * jtw :=
    mod_eq_sub_of_between (by omega) (by omega)
  have m7 : ulc t (jcol * jtw) y x % t.tw
      = ulc t (jcol * jtw) y x - x / t.tw * t.tw :=
    mod_eq_sub_of_between (q := x / t.tw) (by omega) (by omega)
  have m8 : (urc t jtw (jcol * jtw) y x - 1) % t.tw
      = urc t jtw (jcol * jtw) y x - 1 - x / t.tw * t.tw :=
    mod_eq_sub_of_between (q := x / t.tw) (by omega) (by omega)
  have hcond : (llr t jth (jrow * jth) y x - 1) % jth + 1
        - ulr t (jrow * jth) y x % jth
      = (llr t jth (jrow * jth) y x - 1) % t.th + 1
        - ulr t (jrow * jth) y x % t.th ∧
      (urc t jtw (jcol * jtw) y x - 1) % jtw + 1
        - ulc t (jcol * jtw) y x % jtw
      = (urc t jtw (jcol * jtw) y x - 1) % t.tw + 1
        - ulc t (jcol * jtw) y x % t.tw := by
    rw [m1, m2, m3, m4, m5, m6, m7, m8]
    clear m1 m2 m3 m4 m5 m6 m7 m8
    constructor <;> omega
  simp only [regridStep]
  rw [if_pos hcond]
  refine ⟨_, rfl, ?_⟩
  intro r c s hr hc
  have hiff : (ulr t (jrow * jth) y x % jth ≤ r ∧
      r < (llr t jth (jrow * jth) y x - 1) % jth + 1 ∧
      ulc t (jcol * jtw) y x % jtw ≤ c ∧
      c < (urc t jtw (jcol * jtw) y x - 1) % jtw + 1) ↔
      coversPx t y x (jrow * jth + r) (jcol * jtw + c) := by
    rw [m1, m2, m5, m6]
    clear m1 m2 m3 m4 m5 m6 m7 m8 hcond
    unfold coversPx
    omega
  by_cases hcov : coversPx t y x (jrow * jth + r) (jcol * jtw + c)
  · rw [if_pos (hiff.mpr hcov), if_pos hcov]
    have hcov' := hcov
    unfold coversPx at hcov'
    simp only [readTile]
    rw [hncols]
    have eT' : tilenum t y x / (t.imagewidth / t.tw) * t.th
        = y / t.th * t.th := eT
    have eC' : tilenum t y x % (t.imagewidth / t.tw) * t.tw
        = x / t.tw * t.tw := eC
    rw [eT', eC']
    have harg1 : y / t.th * t.th + (ulr t (jrow * jth) y x % t.th
        + (r - ulr t (jrow * jth) y x % jth)) = jrow * jth + r := by
      rw [m3, m1]
      clear m1 m2 m3 m4 m5 m6 m7 m8 hcond hiff
      omega
    have harg2 : x / t.tw * t.tw + (ulc t (jcol * jtw) y x % t.tw
        + (c - ulc t (jcol * jtw) y x % jtw)) = jcol * jtw + c := by
      rw [m7, m5]
      clear m1 m2 m3 m4 m5 m6 m7 m8 hcond hiff
      omega
    rw [harg1, harg2]
  · rw [if_neg (fun h => hcov (hiff.mp h)), if_neg hcov]

end Glymur

namespace Glymur

/-- Folding the copy step over a list of in-range anchors succeeds, and the
final buffer holds the source pixel at each destination-local position
covered by some anchor's source tile, and the initial contents elsewhere.
(All covering anchors write the same value, so overlaps cannot corrupt.) -/
theorem foldlM_regridStep (t : TiffSource) (jth jtw jrow jcol : Nat)
    (hth : 0 < t.th) (htw : 0 < t.tw) (hw : t.tw ∣ t.imagewidth) :
    ∀ (l : List (Nat × Nat)) (buf : TileBuf),
      (∀ yx ∈ l, jrow * jth ≤ yx.1 ∧ yx.1 < jrow * jth + jth ∧
        jcol * jtw ≤ yx.2 ∧ yx.2 < jcol * jtw + jtw ∧ yx.2 < t.imagewidth) →
      ∃ b : TileBuf,
        l.foldlM (regridStep t jth jtw (jrow * jth) (jcol * jtw)) buf
          = .ok b ∧
        ∀ r c s, r < jth → c < jtw →
          b r c s =
            if ∃ yx ∈ l, coversPx t yx.1 yx.2 (jrow * jth + r) (jcol * jtw + c)
            then t.pixel (jrow * jth + r) (jcol * jtw + c) s
            else buf r c s
  | [], buf, _ => ⟨buf, rfl, by intro r c s hr hc; simp⟩
  | (y, x) :: rest, buf, hmem => by
    obtain ⟨h1, h2, h3, h4, h5⟩ := hmem (y, x) (List.mem_cons_self _ _)
    obtain ⟨b1, hb1, hv1⟩ :=
      regridStep_ok t jth jtw jrow jcol y x buf hth htw hw h1 h2 h3 h4 h5
    obtain ⟨b2, hb2, hv2⟩ :=
      foldlM_regridStep t jth jtw jrow jcol hth htw hw rest b1
        (fun e he => hmem e (List.mem_cons_of_mem _ he))
    refine ⟨b2, ?_, ?_⟩
    · rw [List.foldlM_cons, hb1]
      exact hb2
    · intro r c s hr hc
      rw [hv2 r c s hr hc, hv1 r c s hr hc]
      by_cases hrest :
          ∃ yx ∈ rest, coversPx t yx.1 yx.2 (jrow * jth + r) (jcol * jtw + c)
      · obtain ⟨e, he, hec⟩ := hrest
        rw [if_pos ⟨e, he, hec⟩, if_pos ⟨e, List.mem_cons_of_mem _ he, hec⟩]
      · rw [if_neg hrest]
        by_cases hhd : coversPx t y x (jrow * jth + r) (jcol * jtw + c)
        · rw [if_pos hhd, if_pos ⟨(y, x), List.mem_cons_self _ _, hhd⟩]
        · rw [if_neg hhd, if_neg ?_]
          rintro ⟨e, he, hec⟩
          rcases List.mem_cons.mp he with rfl | hin
          · exact hhd hec
          · exact hrest ⟨e, hin, hec⟩

/-- In one axis, when one tile size evenly divides the other, every pixel
offset of the destination tile is covered by the source tile row of some
anchor the scan visits: the anchors are `q*jth + i*th` for
`i < ceil(jth/th)`. -/
theorem scan_covers_axis (th jth q pr : Nat) (hth : 0 < th) (hjth : 0 < jth)
    (hdvd : th ∣ jth ∨ jth ∣ th)
    (h1 : q * jth ≤ pr) (h2 : pr < q * jth + jth) :
    ∃ i < (jth + th - 1) / th,
      (q * jth + i * th) / th * th ≤ pr ∧
        pr < (q * jth + i * th) / th * th + th := by
  have hmono : q * jth / th ≤ pr / th := Nat.div_le_div_right h1
  have key : (q * jth + (pr / th - q * jth / th) * th) / th = pr / th := by
    rw [Nat.add_mul_div_right _ _ hth]
    omega
  have hpr1 : pr / th * th ≤ pr := Nat.div_mul_le_self pr th
  have hpr2 : pr < pr / th * th + th := by
    have hdm := Nat.div_add_mod pr th
    have hml := Nat.mod_lt pr hth
    have hcm : th * (pr / th) = pr / th * th := Nat.mul_comm _ _
    omega
  refine ⟨pr / th - q * jth / th, ?_,
    by rw [key]; exact hpr1, by rw [key]; exact hpr2⟩
  rcases hdvd with ⟨m, rfl⟩ | ⟨m, rfl⟩
  · have hm : m ≠ 0 := by
      rintro rfl
      simp at hjth
    have hK : (th * m + th - 1) / th = m := by
      have he : th * m + th - 1 = th * m + (th - 1) := by omega
      rw [he, Nat.mul_add_div hth, Nat.div_eq_of_lt (by omega), Nat.add_zero]
    have hJ : q * (th * m) / th = q * m := by
      have he : q * (th * m) = th * (q * m) := by ring
      rw [he, Nat.mul_div_cancel_left _ hth]
    have hlt : pr / th < q * m + m := by
      have hb : pr < (q * m + m) * th := by
        have he : q * (th * m) + th * m = (q * m + m) * th := by ring
        omega
      exact (Nat.div_lt_iff_lt_mul hth).mpr hb
    rw [hK, hJ]
    omega
  · have hm : 0 < m := by
      rcases Nat.eq_zero_or_pos m with rfl | hm
      · simp at hth
      · exact hm
    have hK1 : 1 ≤ (jth + jth * m - 1) / (jth * m) := by
      rw [Nat.le_div_iff_mul_le hth]
      omega
    have hq : jth * m * (q / m) ≤ q * jth ∧
        q * jth + jth ≤ jth * m * (q / m) + jth * m := by
      have hdm := Nat.div_add_mod q m
      have hbm : q % m < m := Nat.mod_lt q hm
      have he1 : q * jth = jth * m * (q / m) + q % m * jth := by
        calc q * jth = (m * (q / m) + q % m) * jth := by rw [hdm]
          _ = jth * m * (q / m) + q % m * jth := by ring
      have he2 : (q % m + 1) * jth ≤ m * jth := Nat.mul_le_mul_right jth hbm
      have he3 : (q % m + 1) * jth = q % m * jth + jth := by ring
      have he4 : m * jth = jth * m := by ring
      omega
    have hprb : jth * m * (q / m) ≤ pr ∧ pr < jth * m * (q / m) + jth * m := by
      omega
    have hprd : pr / (jth * m) = q / m := by
      have hs : (q / m + 1) * (jth * m) = jth * m * (q / m) + jth * m := by ring
      have hs2 : q / m * (jth * m) = jth * m * (q / m) := by ring
      exact Nat.div_eq_of_lt_le (by omega) (by omega)
    have hqd : q * jth / (jth * m) = q / m := by
      have hs : (q / m + 1) * (jth * m) = jth * m * (q / m) + jth * m := by ring
      have hs2 : q / m * (jth * m) = jth * m * (q / m) := by ring
      exact Nat.div_eq_of_lt_le (by omega) (by omega)
    rw [hprd, hqd]
    omega

/-- Under the per-axis divisibility conditions, every position of an
in-range destination tile is covered by the source tile of some scanned
anchor. -/
theorem scanList_covers (t : TiffSource) (jth jtw jrow jcol r c : Nat)
    (hth : 0 < t.th) (htw : 0 < t.tw) (hjth : 0 < jth) (hjtw : 0 < jtw)
    (hrd : t.th ∣ jth ∨ jth ∣ t.th) (hcd : t.tw ∣ jtw ∨ jtw ∣ t.tw)
    (hrow : jrow < t.imageheight / jth) (hcol : jcol < t.imagewidth / jtw)
    (hr : r < jth) (hc : c < jtw) :
    ∃ yx ∈ scanList t jth jtw (jrow * jth) (jcol * jtw),
      coversPx t yx.1 yx.2 (jrow * jth + r) (jcol * jtw + c) := by
  have hrowle : (jrow + 1) * jth ≤ t.imageheight := by
    have hle : jrow + 1 ≤ t.imageheight / jth := hrow
    have := (Nat.le_div_iff_mul_le hjth).mp hle
    calc (jrow + 1) * jth ≤ t.imageheight / jth * jth := Nat.mul_le_mul_right _ hle
      _ = jth * (t.imageheight / jth) := Nat.mul_comm _ _
      _ ≤ t.imageheight := Nat.mul_div_le _ _
  have hcolle : (jcol + 1) * jtw ≤ t.imagewidth := by
    have hle : jcol + 1 ≤ t.imagewidth / jtw := hcol
    calc (jcol + 1) * jtw ≤ t.imagewidth / jtw * jtw := Nat.mul_le_mul_right _ hle
      _ = jtw * (t.imagewidth / jtw) := Nat.mul_comm _ _
      _ ≤ t.imagewidth := Nat.mul_div_le _ _
  have hminr : min (jrow * jth + jth) t.imageheight = jrow * jth + jth := by
    have hx : (jrow + 1) * jth = jrow * jth + jth := by ring
    omega
  have hminc : min (jcol * jtw + jtw) t.imagewidth = jcol * jtw + jtw := by
    have hx : (jcol + 1) * jtw = jcol * jtw + jtw := by ring
    omega
  obtain ⟨i, hiK, hcov1, hcov2⟩ :=
    scan_covers_axis t.th jth jrow (jrow * jth + r) hth hjth hrd
      (Nat.le_add_right _ _) (by omega)
  obtain ⟨j, hjK, hcov3, hcov4⟩ :=
    scan_covers_axis t.tw jtw jcol (jcol * jtw + c) htw hjtw hcd
      (Nat.le_add_right _ _) (by omega)
  have hymem : jrow * jth + i * t.th
      ∈ pyRange (jrow * jth) (min (jrow * jth + jth) t.imageheight) t.th := by
    apply pyRange_mem_of
    rw [hminr]
    have heq : jrow * jth + jth - (jrow * jth) + t.th - 1 = jth + t.th - 1 := by
      omega
    rw [heq]
    exact hiK
  have hxmem : jcol * jtw + j * t.tw
      ∈ pyRange (jcol * jtw) (min (jcol * jtw + jtw) t.imagewidth) t.tw := by
    apply pyRange_mem_of
    rw [hminc]
    have heq : jcol * jtw + jtw - (jcol * jtw) + t.tw - 1 = jtw + t.tw - 1 := by
      omega
    rw [heq]
    exact hjK
  exact ⟨(jrow * jth + i * t.th, jcol * jtw + j * t.tw),
    scanList_mem_iff.mpr ⟨hymem, hxmem⟩, hcov1, hcov2, hcov3, hcov4⟩

end Glymur

namespace Glymur

theorem except_bind_ok {ε α β : Type} (a : α) (f : α → Except ε β) :
    (Except.ok a >>= f : Except ε β) = f a := rfl

/-- Every scanned anchor of a destination tile whose origin is
`(jrow*jth, jcol*jtw)` lies inside that tile and inside the image width. -/
theorem scanList_bounds (t : TiffSource) (jth jtw jrow jcol : Nat)
    (hth : 0 < t.th) (htw : 0 < t.tw) :
    ∀ yx ∈ scanList t jth jtw (jrow * jth) (jcol * jtw),
      jrow * jth ≤ yx.1 ∧ yx.1 < jrow * jth + jth ∧
      jcol * jtw ≤ yx.2 ∧ yx.2 < jcol * jtw + jtw ∧ yx.2 < t.imagewidth := by
  intro yx hyx
  obtain ⟨y, x⟩ := yx
  obtain ⟨hy, hx⟩ := scanList_mem_iff.mp hyx
  have hyb := pyRange_bounds hth hy
  have hxb := pyRange_bounds htw hx
  exact ⟨hyb.1, by omega, hxb.1, by omega, by omega⟩

/-- Assembling one in-range destination tile succeeds and produces exactly
the source pixels of that tile's footprint, for any incoming scratch
contents. -/
theorem assembleInto_ok (t : TiffSource) (jth jtw idx : Nat) (buf : TileBuf)
    (hth : 0 < t.th) (htw : 0 < t.tw) (hjth : 0 < jth) (hjtw : 0 < jtw)
    (hw : t.tw ∣ t.imagewidth)
    (hrd : t.th ∣ jth ∨ jth ∣ t.th) (hcd : t.tw ∣ jtw ∨ jtw ∣ t.tw)
    (hidx : idx < (t.imageheight / jth) * (t.imagewidth / jtw)) :
    ∃ b : TileBuf, assembleInto t jth jtw idx buf = .ok b ∧
      ∀ r c s, r < jth → c < jtw →
        b r c s = t.pixel (idx / (t.imagewidth / jtw) * jth + r)
          (idx % (t.imagewidth / jtw) * jtw + c) s := by
  have hcpos : 0 < t.imagewidth / jtw := by
    rcases Nat.eq_zero_or_pos (t.imagewidth / jtw) with h0 | h
    · rw [h0, Nat.mul_zero] at hidx
      omega
    · exact h
  have hrow : idx / (t.imagewidth / jtw) < t.imageheight / jth :=
    (Nat.div_lt_iff_lt_mul hcpos).mpr hidx
  have hcol : idx % (t.imagewidth / jtw) < t.imagewidth / jtw :=
    Nat.mod_lt _ hcpos
  obtain ⟨b, hb, hv⟩ :=
    foldlM_regridStep t jth jtw (idx / (t.imagewidth / jtw))
      (idx % (t.imagewidth / jtw)) hth htw hw
      (scanList t jth jtw (idx / (t.imagewidth / jtw) * jth)
        (idx % (t.imagewidth / jtw) * jtw)) buf
      (scanList_bounds t jth jtw _ _ hth htw)
  refine ⟨b, hb, ?_⟩
  intro r c s hr hc
  rw [hv r c s hr hc,
    if_pos (scanList_covers t jth jtw _ _ r c hth htw hjth hjtw
      hrd hcd hrow hcol hr hc)]

/-- The destination-tile loop of strategy 3 over any list of in-range tile
indices: it succeeds, emits one buffer per index, and the buffer emitted for
index `idx` holds exactly the source pixels of destination tile `idx`'s
footprint, despite the scratch buffer being reused across iterations. -/
theorem strategy3Loop_correct (t : TiffSource) (jth jtw : Nat)
    (hth : 0 < t.th) (htw : 0 < t.tw) (hjth : 0 < jth) (hjtw : 0 < jtw)
    (hw : t.tw ∣ t.imagewidth)
    (hrd : t.th ∣ jth ∨ jth ∣ t.th) (hcd : t.tw ∣ jtw ∨ jtw ∣ t.tw) :
    ∀ (idxs : List Nat) (buf : TileBuf),
      (∀ i ∈ idxs, i < (t.imageheight / jth) * (t.imagewidth / jtw)) →
      ∃ outs : List TileBuf,
        strategy3Loop t jth jtw idxs buf = .ok outs ∧
        outs.length = idxs.length ∧
        ∀ k, k < idxs.length → ∀ r c s, r < jth → c < jtw →
          outs.getD k (fun _ _ _ => 0) r c s =
            t.pixel (idxs.getD k 0 / (t.imagewidth / jtw) * jth + r)
              (idxs.getD k 0 % (t.imagewidth / jtw) * jtw + c) s
  | [], buf, _ => ⟨[], rfl, rfl, fun k hk => absurd hk (Nat.not_lt_zero k)⟩
  | idx :: rest, buf, hmem => by
    obtain ⟨b1, hb1, hv1⟩ :=
      assembleInto_ok t jth jtw idx buf hth htw hjth hjtw hw hrd hcd
        (hmem idx (List.mem_cons_self _ _))
    obtain ⟨outs, houts, hlen, hval⟩ :=
      strategy3Loop_correct t jth jtw hth htw hjth hjtw hw hrd hcd
        rest b1 (fun i hi => hmem i (List.mem_cons_of_mem _ hi))
    refine ⟨b1 :: outs, ?_, by simp [hlen], ?_⟩
    · simp only [strategy3Loop]
      rw [hb1]
      simp only [except_bind_ok]
      rw [houts]
      simp only [except_bind_ok]
      rfl
    · intro k hk r c s hr hc
      cases k with
      | zero =>
        simpa using hv1 r c s hr hc
      | succ m =>
        have hm : m < rest.length := by simpa using hk
        simpa using hval m hm r c s hr hc

end Glymur

namespace Glymur

theorem range_getD {n k : Nat} (h : k < n) : (List.range n).getD k 0 = k := by
  simp [List.getD_eq_getElem?_getD, List.getElem?_range h]

/- ## Claim C1: the regridding round-trip -/

/-- C1 (amended): when, in each axis, one of the two tile sizes evenly
divides the other (in addition to both evenly dividing the image), the
regridding strategy reproduces the original image pixel-for-pixel: the
destination tile at grid position `(jrow, jcol)` holds, at local position
`(r, c)`, the source pixel of image coordinate
`(jrow*jth + r, jcol*jtw + c)` — for destination tiles both larger and
smaller than the source tiles. -/
theorem regrid_reproduces (t : TiffSource) (jth jtw jrow jcol r c s : Nat)
    (hth : 0 < t.th) (htw : 0 < t.tw) (hjth : 0 < jth) (hjtw : 0 < jtw)
    (hw : t.tw ∣ t.imagewidth)
    (hjh : jth ∣ t.imageheight) (hjw : jtw ∣ t.imagewidth)
    (hrd : t.th ∣ jth ∨ jth ∣ t.th) (hcd : t.tw ∣ jtw ∨ jtw ∣ t.tw)
    (hrow : jrow < t.imageheight / jth) (hcol : jcol < t.imagewidth / jtw)
    (hr : r < jth) (hc : c < jtw) :
    regridResultPx t jth jtw jrow jcol r c s =
      some (t.pixel (jrow * jth + r) (jcol * jtw + c) s) := by
  have hN : numDestTiles t.imageheight t.imagewidth jth jtw
      = (t.imageheight / jth) * (t.imagewidth / jtw) := by
    rw [numDestTiles, ceil_div_eq hjth hjh, ceil_div_eq hjtw hjw]
  obtain ⟨outs, houts, hlen, hval⟩ :=
    strategy3Loop_correct t jth jtw hth htw hjth hjtw hw hrd hcd
      (List.range (numDestTiles t.imageheight t.imagewidth jth jtw))
      (fun _ _ _ => 0)
      (fun i hi => by rw [← hN]; exact List.mem_range.mp hi)
  have hcpos : 0 < t.imagewidth / jtw := lt_of_le_of_lt (Nat.zero_le _) hcol
  have hidx : jrow * (t.imagewidth / jtw) + jcol
      < numDestTiles t.imageheight t.imagewidth jth jtw := by
    rw [hN]
    have h1 : (jrow + 1) * (t.imagewidth / jtw)
        ≤ t.imageheight / jth * (t.imagewidth / jtw) :=
      Nat.mul_le_mul_right _ hrow
    have h2 : (jrow + 1) * (t.imagewidth / jtw)
        = jrow * (t.imagewidth / jtw) + t.imagewidth / jtw := by ring
    omega
  have hdiv : (jrow * (t.imagewidth / jtw) + jcol) / (t.imagewidth / jtw)
      = jrow := by
    rw [Nat.add_comm, Nat.add_mul_div_right _ _ hcpos,
      Nat.div_eq_of_lt hcol, Nat.zero_add]
  have hmod : (jrow * (t.imagewidth / jtw) + jcol) % (t.imagewidth / jtw)
      = jcol := by
    rw [Nat.add_comm, Nat.add_mul_mod_self_right, Nat.mod_eq_of_lt hcol]
  have hS : strategy3 t jth jtw = .ok outs := houts
  simp only [regridResultPx, hS, Except.toOption, Option.map_some]
  refine congrArg some ?_
  have hv := hval (jrow * (t.imagewidth / jtw) + jcol)
    (by rw [List.length_range]; exact hidx) r c s hr hc
  rw [range_getD hidx] at hv
  show outs.getD (jrow * (t.imagewidth / jtw) + jcol) (fun _ _ _ => 0) r c s
    = t.pixel (jrow * jth + r) (jcol * jtw + c) s
  rw [hv, hdiv, hmod]

/-- The 12x12 image that exhibits the regridding defect: source tiles are
6 rows by 4 columns, the requested destination tiles are 4x4.  Both tile
grids evenly divide the image; the column tile sizes agree (ratio 1), while
the row sizes 6 and 4 are not integer multiples of one another. -/
def srcMixed : TiffSource :=
  { isTiled := true, imagewidth := 12, imageheight := 12, spp := 1,
    sf := .uint, bps := 8, tw := 4, th := 6, rgbaOK := false,
    pixel := fun r c _ => 100 * r + c, rgba := fun _ _ _ => 0 }

/-- C1 is false on the code as claimed: on `srcMixed` (all divisibility
guards of strategy 3 hold; the column ratio is an integer multiple, the row
ratio is not), the destination tile at grid position (1, 0) straddles the
source-tile-row boundary at image row 6, but the scan
`range(julr, julr + jth, th) = range(4, 8, 6) = [4]` visits only the upper
source tile, so image row 6 of that tile keeps the scratch buffer's stale
contents (pixel (2, 8) of the previously assembled tile) instead of the
source pixel at image coordinate (6, 0). -/
theorem regrid_reproduces_counterexample :
    (srcMixed.imageheight % srcMixed.th = 0 ∧
      srcMixed.imagewidth % srcMixed.tw = 0 ∧
      srcMixed.imageheight % 4 = 0 ∧ srcMixed.imagewidth % 4 = 0 ∧
      srcMixed.bps = 8 ∧ srcMixed.sf = SampleFormat.uint ∧
      ¬srcMixed.th ∣ 4 ∧ ¬(4 : Nat) ∣ srcMixed.th ∧ srcMixed.tw ∣ 4) ∧
    regridResultPx srcMixed 4 4 1 0 2 0 0 ≠
      some (srcMixed.pixel (1 * 4 + 2) (0 * 4 + 0) 0) := by
  constructor
  · decide
  · decide

/-- Witness for the amended C1 on a concrete instance: a 4x4 image, 2x2
source tiles, 4x4 destination tiles (the destination tile is an even
multiple of the source tile). -/
theorem regrid_reproduces_witness :
    (0 < srcTiled.th ∧ 0 < srcTiled.tw ∧ 0 < 4 ∧
      srcTiled.tw ∣ srcTiled.imagewidth ∧
      (4 : Nat) ∣ srcTiled.imageheight ∧ (4 : Nat) ∣ srcTiled.imagewidth ∧
      srcTiled.th ∣ 4 ∧ srcTiled.tw ∣ 4 ∧
      0 < srcTiled.imageheight / 4 ∧ 0 < srcTiled.imagewidth / 4) ∧
    regridResultPx srcTiled 4 4 0 0 3 2 0 =
      some (srcTiled.pixel (0 * 4 + 3) (0 * 4 + 2) 0) :=
  ⟨by decide,
    regrid_reproduces srcTiled 4 4 0 0 3 2 0 (by decide) (by decide)
      (by decide) (by decide) (by decide) (by decide) (by decide)
      (Or.inl (by decide)) (Or.inl (by decide)) (by decide) (by decide)
      (by decide) (by decide)⟩

/- ## Claim C7: the shape-mismatch branch is unreachable -/

/-- C7: under the regridding strategy's geometry (positive tile sizes and a
source tile width that evenly divides the image width), every copy step's
source-local and destination-local sub-rectangles have equal shape, so the
shape-mismatch branch (the `ValueError` handler at tiff.py lines 154-158) is
unreachable: assembling any destination tile from any scratch contents
succeeds, and so does the whole strategy-3 run. -/
theorem copy_shapes_match (t : TiffSource) (jth jtw : Nat)
    (hth : 0 < t.th) (htw : 0 < t.tw) (hw : t.tw ∣ t.imagewidth) :
    (∀ idx buf, ∃ b, assembleInto t jth jtw idx buf = .ok b) ∧
    ∃ tiles, strategy3 t jth jtw = .ok tiles := by
  have hstep : ∀ idx buf, ∃ b, assembleInto t jth jtw idx buf = .ok b := by
    intro idx buf
    obtain ⟨b, hb, -⟩ :=
      foldlM_regridStep t jth jtw (idx / (t.imagewidth / jtw))
        (idx % (t.imagewidth / jtw)) hth htw hw
        (scanList t jth jtw (idx / (t.imagewidth / jtw) * jth)
          (idx % (t.imagewidth / jtw) * jtw)) buf
        (scanList_bounds t jth jtw _ _ hth htw)
    exact ⟨b, hb⟩
  have hloop : ∀ (idxs : List Nat) (buf : TileBuf),
      ∃ outs, strategy3Loop t jth jtw idxs buf = .ok outs := by
    intro idxs
    induction idxs with
    | nil => exact fun buf => ⟨[], rfl⟩
    | cons idx rest ih =>
      intro buf
      obtain ⟨b1, hb1⟩ := hstep idx buf
      obtain ⟨outs, houts⟩ := ih b1
      refine ⟨b1 :: outs, ?_⟩
      simp only [strategy3Loop]
      rw [hb1]
      simp only [except_bind_ok]
      rw [houts]
      simp only [except_bind_ok]
      rfl
  exact ⟨hstep, hloop _ _⟩

theorem copy_shapes_match_witness :
    (0 < srcMixed.th ∧ 0 < srcMixed.tw ∧
      srcMixed.tw ∣ srcMixed.imagewidth) ∧
    ((∀ idx buf, ∃ b, assembleInto srcMixed 4 4 idx buf = .ok b) ∧
      ∃ tiles, strategy3 srcMixed 4 4 = .ok tiles) :=
  ⟨by decide, copy_shapes_match srcMixed 4 4 (by decide) (by decide)
    (by decide)⟩

end Glymur

namespace Glymur

theorem div_mul_bounds (a d : Nat) (hd : 0 < d) :
    a / d * d ≤ a ∧ a < a / d * d + d := by
  have hdm := Nat.div_add_mod a d
  have hml := Nat.mod_lt a hd
  have hcm : d * (a / d) = a / d * d := Nat.mul_comm _ _
  omega

theorem cover_div_eq (d y pr : Nat)
    (h1 : y / d * d ≤ pr) (h2 : pr < y / d * d + d) : pr / d = y / d := by
  have hs : (y / d + 1) * d = y / d * d + d := by ring
  exact Nat.div_eq_of_lt_le h1 (by omega)

/-- Decomposition of the tile index computed for pixel `(y, x)` into the
source grid position used by the code (tiff.py lines 127-136): under the
strategy-3 guard the ceiling and floor column counts agree. -/
theorem tilenum_decomp (t : TiffSource) (y x : Nat) (htw : 0 < t.tw)
    (hw : t.tw ∣ t.imagewidth) (hxw : x < t.imagewidth) :
    computeTile t x y / (t.imagewidth / t.tw) = y / t.th ∧
    computeTile t x y % (t.imagewidth / t.tw) = x / t.tw := by
  have hncols : tiffTileCols t = t.imagewidth / t.tw := tiffTileCols_eq htw hw
  have hxcol : x / t.tw < t.imagewidth / t.tw :=
    Nat.div_lt_div_of_lt_of_dvd hw hxw
  have hnpos : 0 < t.imagewidth / t.tw := lt_of_le_of_lt (Nat.zero_le _) hxcol
  have htile : computeTile t x y
      = y / t.th * (t.imagewidth / t.tw) + x / t.tw := by
    rw [computeTile, hncols]
  constructor
  · rw [htile, Nat.add_comm, Nat.add_mul_div_right _ _ hnpos,
      Nat.div_eq_of_lt hxcol, Nat.zero_add]
  · rw [htile, Nat.add_comm, Nat.add_mul_mod_self_right,
      Nat.mod_eq_of_lt hxcol]

theorem pyRange_nodup (a b s : Nat) (hs : 0 < s) : (pyRange a b s).Nodup :=
  List.Nodup.map
    (fun i j h => Nat.eq_of_mul_eq_mul_right hs (by omega))
    (List.nodup_range _)

theorem scanList_nodup (t : TiffSource) (jth jtw julr julc : Nat)
    (hth : 0 < t.th) (htw : 0 < t.tw) :
    (scanList t jth jtw julr julc).Nodup := by
  unfold scanList
  rw [List.nodup_flatMap]
  constructor
  · intro y hy
    exact (pyRange_nodup _ _ _ htw).map (fun a b h => by simpa using h)
  · refine List.Pairwise.imp ?_ (pyRange_nodup _ _ _ hth)
    intro y1 y2 hne e he1 he2
    simp only [Function.onFun, List.mem_map] at he1 he2
    obtain ⟨x1, -, rfl⟩ := he1
    obtain ⟨x2, -, he⟩ := he2
    exact hne (congrArg Prod.fst he).symm

/-- Two scanned anchors whose pixel coordinates lie in the same source tile
row and column are the same anchor. -/
theorem scan_elem_ext (t : TiffSource) (jth jtw julr julc y1 x1 y2 x2 : Nat)
    (hth : 0 < t.th) (htw : 0 < t.tw)
    (h1 : (y1, x1) ∈ scanList t jth jtw julr julc)
    (h2 : (y2, x2) ∈ scanList t jth jtw julr julc)
    (hdy : y1 / t.th = y2 / t.th) (hdx : x1 / t.tw = x2 / t.tw) :
    (y1, x1) = (y2, x2) := by
  obtain ⟨hy1, hx1⟩ := scanList_mem_iff.mp h1
  obtain ⟨hy2, hx2⟩ := scanList_mem_iff.mp h2
  obtain ⟨i1, -, hyy1⟩ := pyRange_mem_iff.mp hy1
  obtain ⟨i2, -, hyy2⟩ := pyRange_mem_iff.mp hy2
  obtain ⟨j1, -, hxx1⟩ := pyRange_mem_iff.mp hx1
  obtain ⟨j2, -, hxx2⟩ := pyRange_mem_iff.mp hx2
  subst hyy1
  subst hyy2
  subst hxx1
  subst hxx2
  rw [Nat.add_mul_div_right _ _ hth, Nat.add_mul_div_right _ _ hth] at hdy
  rw [Nat.add_mul_div_right _ _ htw, Nat.add_mul_div_right _ _ htw] at hdx
  have hi : i1 = i2 := by omega
  have hj : j1 = j2 := by omega
  rw [hi, hj]

/- ## Claim C10: no source tile is decoded twice per destination tile -/

/-- C10: within the assembly of one destination tile, the scanned `(y, x)`
anchors map to pairwise-distinct source tile indices (the successive
`tilenum` values are all different), so no source tile is fetched and
decoded more than once per destination tile. -/
theorem scanned_tiles_nodup (t : TiffSource) (jth jtw jrow jcol : Nat)
    (hth : 0 < t.th) (htw : 0 < t.tw) (hw : t.tw ∣ t.imagewidth) :
    (scannedTiles t jth jtw (jrow * jth) (jcol * jtw)).Nodup := by
  refine (scanList_nodup t jth jtw _ _ hth htw).map_on ?_
  intro e1 hm1 e2 hm2 heq
  obtain ⟨y1, x1⟩ := e1
  obtain ⟨y2, x2⟩ := e2
  have hx1w : x1 < t.imagewidth := by
    have := (scanList_bounds t jth jtw jrow jcol hth htw) (y1, x1) hm1
    exact this.2.2.2.2
  have hx2w : x2 < t.imagewidth := by
    have := (scanList_bounds t jth jtw jrow jcol hth htw) (y2, x2) hm2
    exact this.2.2.2.2
  have heq' : computeTile t x1 y1 = computeTile t x2 y2 := heq
  obtain ⟨d1, m1⟩ := tilenum_decomp t y1 x1 htw hw hx1w
  obtain ⟨d2, m2⟩ := tilenum_decomp t y2 x2 htw hw hx2w
  exact scan_elem_ext t jth jtw _ _ y1 x1 y2 x2 hth htw hm1 hm2
    (by rw [← d1, ← d2, heq']) (by rw [← m1, ← m2, heq'])

theorem scanned_tiles_nodup_witness :
    (0 < srcMixed.th ∧ 0 < srcMixed.tw ∧ srcMixed.tw ∣ srcMixed.imagewidth) ∧
    (scannedTiles srcMixed 4 4 (1 * 4) (2 * 4)).Nodup :=
  ⟨by decide, scanned_tiles_nodup srcMixed 4 4 1 2 (by decide) (by decide)
    (by decide)⟩

end Glymur

namespace Glymur

/- ## Claim C2: the scan visits exactly the intersecting source tiles and
covers the destination tile exactly once -/

/-- C2 (amended): under the strategy-3 guard plus the per-axis divisibility
of one tile size by the other, for every in-range destination tile the
scan's visited source tile indices are exactly the source tiles whose
footprints intersect the destination tile, and every pixel of the
destination tile lies in the intersection rectangle of exactly one scanned
anchor (no gaps, no overlaps). -/
theorem scan_exact_cover (t : TiffSource) (jth jtw jrow jcol : Nat)
    (hth : 0 < t.th) (htw : 0 < t.tw) (hjth : 0 < jth) (hjtw : 0 < jtw)
    (hw : t.tw ∣ t.imagewidth)
    (hrd : t.th ∣ jth ∨ jth ∣ t.th) (hcd : t.tw ∣ jtw ∨ jtw ∣ t.tw)
    (hrow : jrow < t.imageheight / jth) (hcol : jcol < t.imagewidth / jtw) :
    (∀ n : Nat, n ∈ scannedTiles t jth jtw (jrow * jth) (jcol * jtw) ↔
      tileIntersects t n jth jtw (jrow * jth) (jcol * jtw)) ∧
    (∀ pr pc, jrow * jth ≤ pr → pr < jrow * jth + jth →
      jcol * jtw ≤ pc → pc < jcol * jtw + jtw →
      ∃ yx ∈ scanList t jth jtw (jrow * jth) (jcol * jtw),
        coversPx t yx.1 yx.2 pr pc ∧
        ∀ yx' ∈ scanList t jth jtw (jrow * jth) (jcol * jtw),
          coversPx t yx'.1 yx'.2 pr pc → yx' = yx) := by
  have hwpos : 0 < t.imagewidth := by
    have h1 : jcol + 1 ≤ t.imagewidth / jtw := hcol
    have h2 := Nat.mul_div_le t.imagewidth jtw
    have h3 : 1 * jtw ≤ t.imagewidth / jtw * jtw :=
      Nat.mul_le_mul_right _ (by omega)
    have h4 : t.imagewidth / jtw * jtw = jtw * (t.imagewidth / jtw) :=
      Nat.mul_comm _ _
    omega
  have hnpos : 0 < t.imagewidth / t.tw :=
    Nat.div_pos (Nat.le_of_dvd hwpos hw) htw
  constructor
  · intro n
    constructor
    · intro hn
      obtain ⟨yx, hmem, heq⟩ := List.mem_map.mp hn
      obtain ⟨y, x⟩ := yx
      have heq' : computeTile t x y = n := heq
      subst heq'
      have hb := (scanList_bounds t jth jtw jrow jcol hth htw) (y, x) hmem
      obtain ⟨hb1, hb2, hb3, hb4, hb5⟩ := hb
      obtain ⟨d1, m1⟩ := tilenum_decomp t y x htw hw hb5
      unfold tileIntersects
      rw [d1, m1]
      have hby := div_mul_bounds y t.th hth
      have hbx := div_mul_bounds x t.tw htw
      refine ⟨by omega, by omega, by omega, by omega⟩
    · intro hint
      unfold tileIntersects at hint
      obtain ⟨hi1, hi2, hi3, hi4⟩ := hint
      obtain ⟨i, hiK, hc1, hc2⟩ :=
        scan_covers_axis t.th jth jrow
          (max (jrow * jth) (n / (t.imagewidth / t.tw) * t.th)) hth hjth hrd
          (Nat.le_max_left _ _) (by omega)
      obtain ⟨j, hjK, hc3, hc4⟩ :=
        scan_covers_axis t.tw jtw jcol
          (max (jcol * jtw) (n % (t.imagewidth / t.tw) * t.tw)) htw hjtw hcd
          (Nat.le_max_left _ _) (by omega)
      have hrowle : (jrow + 1) * jth ≤ t.imageheight := by
        have hle : jrow + 1 ≤ t.imageheight / jth := hrow
        calc (jrow + 1) * jth ≤ t.imageheight / jth * jth :=
              Nat.mul_le_mul_right _ hle
          _ = jth * (t.imageheight / jth) := Nat.mul_comm _ _
          _ ≤ t.imageheight := Nat.mul_div_le _ _
      have hcolle : (jcol + 1) * jtw ≤ t.imagewidth := by
        have hle : jcol + 1 ≤ t.imagewidth / jtw := hcol
        calc (jcol + 1) * jtw ≤ t.imagewidth / jtw * jtw :=
              Nat.mul_le_mul_right _ hle
          _ = jtw * (t.imagewidth / jtw) := Nat.mul_comm _ _
          _ ≤ t.imagewidth := Nat.mul_div_le _ _
      have hminr : min (jrow * jth + jth) t.imageheight = jrow * jth + jth := by
        have hx : (jrow + 1) * jth = jrow * jth + jth := by ring
        omega
      have hminc : min (jcol * jtw + jtw) t.imagewidth = jcol * jtw + jtw := by
        have hx : (jcol + 1) * jtw = jcol * jtw + jtw := by ring
        omega
      have hymem : jrow * jth + i * t.th
          ∈ pyRange (jrow * jth) (min (jrow * jth + jth) t.imageheight)
            t.th := by
        apply pyRange_mem_of
        rw [hminr]
        have heq : jrow * jth + jth - (jrow * jth) + t.th - 1
            = jth + t.th - 1 := by omega
        rw [heq]
        exact hiK
      have hxmem : jcol * jtw + j * t.tw
          ∈ pyRange (jcol * jtw) (min (jcol * jtw + jtw) t.imagewidth)
            t.tw := by
        apply pyRange_mem_of
        rw [hminc]
        have heq : jcol * jtw + jtw - (jcol * jtw) + t.tw - 1
            = jtw + t.tw - 1 := by omega
        rw [heq]
        exact hjK
      refine List.mem_map.mpr
        ⟨(jrow * jth + i * t.th, jcol * jtw + j * t.tw),
          scanList_mem_iff.mpr ⟨hymem, hxmem⟩, ?_⟩
      show computeTile t (jcol * jtw + j * t.tw) (jrow * jth + i * t.th) = n
      -- the covered pixel lies in source tile row n / N and column n % N
      have hrowbnd := div_mul_bounds (n / (t.imagewidth / t.tw) * t.th) t.th hth
      have hdivr : (jrow * jth + i * t.th) / t.th
          = n / (t.imagewidth / t.tw) := by
        have hx1 : n / (t.imagewidth / t.tw) * t.th / t.th
            = n / (t.imagewidth / t.tw) :=
          Nat.mul_div_cancel _ hth
        have h1 := cover_div_eq t.th (jrow * jth + i * t.th)
          (max (jrow * jth) (n / (t.imagewidth / t.tw) * t.th)) hc1 hc2
        have h2 := cover_div_eq t.th (n / (t.imagewidth / t.tw) * t.th)
          (max (jrow * jth) (n / (t.imagewidth / t.tw) * t.th))
          (by rw [hx1]; omega) (by rw [hx1]; omega)
        rw [h1] at h2
        rw [h2, hx1]
      have hdivc : (jcol * jtw + j * t.tw) / t.tw
          = n % (t.imagewidth / t.tw) := by
        have hx1 : n % (t.imagewidth / t.tw) * t.tw / t.tw
            = n % (t.imagewidth / t.tw) :=
          Nat.mul_div_cancel _ htw
        have h1 := cover_div_eq t.tw (jcol * jtw + j * t.tw)
          (max (jcol * jtw) (n % (t.imagewidth / t.tw) * t.tw)) hc3 hc4
        have h2 := cover_div_eq t.tw (n % (t.imagewidth / t.tw) * t.tw)
          (max (jcol * jtw) (n % (t.imagewidth / t.tw) * t.tw))
          (by rw [hx1]; omega) (by rw [hx1]; omega)
        rw [h1] at h2
        rw [h2, hx1]
      have hmodn : n % (t.imagewidth / t.tw) < t.imagewidth / t.tw :=
        Nat.mod_lt _ hnpos
      have hdm : t.imagewidth / t.tw * (n / (t.imagewidth / t.tw))
          + n % (t.imagewidth / t.tw) = n := Nat.div_add_mod _ _
      rw [computeTile, tiffTileCols_eq htw hw, hdivr, hdivc]
      have hcm : n / (t.imagewidth / t.tw) * (t.imagewidth / t.tw)
          = t.imagewidth / t.tw * (n / (t.imagewidth / t.tw)) :=
        Nat.mul_comm _ _
      omega
  · intro pr pc hpr1 hpr2 hpc1 hpc2
    obtain ⟨yx, hmem, hcov⟩ :=
      scanList_covers t jth jtw jrow jcol (pr - jrow * jth) (pc - jcol * jtw)
        hth htw hjth hjtw hrd hcd hrow hcol (by omega) (by omega)
    have hpr : jrow * jth + (pr - jrow * jth) = pr := by omega
    have hpc : jcol * jtw + (pc - jcol * jtw) = pc := by omega
    rw [hpr, hpc] at hcov
    refine ⟨yx, hmem, hcov, ?_⟩
    intro yx' hmem' hcov'
    obtain ⟨y1, x1⟩ := yx'
    obtain ⟨y2, x2⟩ := yx
    unfold coversPx at hcov hcov'
    obtain ⟨ha1, ha2, ha3, ha4⟩ := hcov
    obtain ⟨hb1, hb2, hb3, hb4⟩ := hcov'
    exact scan_elem_ext t jth jtw _ _ y1 x1 y2 x2 hth htw hmem' hmem
      (by rw [← cover_div_eq t.th y1 pr hb1 hb2, cover_div_eq t.th y2 pr ha1 ha2])
      (by rw [← cover_div_eq t.tw x1 pc hb3 hb4, cover_div_eq t.tw x2 pc ha3 ha4])

/-- C2 is false on the code as claimed (under only the even-divisibility
guard): on `srcMixed`, for the destination tile at grid position (1, 0), the
source tile with index 3 (grid row 1, column 0: image rows 6..11, columns
0..3) intersects the destination tile (image rows 4..7, columns 0..3), but
the scan visits only source tile 0, so the intersection rectangles leave
image rows 6..7 of the destination tile uncovered. -/
theorem scan_exact_cover_counterexample :
    (srcMixed.imageheight % srcMixed.th = 0 ∧
      srcMixed.imagewidth % srcMixed.tw = 0 ∧
      srcMixed.imageheight % 4 = 0 ∧ srcMixed.imagewidth % 4 = 0) ∧
    tileIntersects srcMixed 3 4 4 (1 * 4) (0 * 4) ∧
    3 ∉ scannedTiles srcMixed 4 4 (1 * 4) (0 * 4) ∧
    ¬(∃ yx ∈ scanList srcMixed 4 4 (1 * 4) (0 * 4),
      coversPx srcMixed yx.1 yx.2 6 0) := by
  refine ⟨by decide, by decide, by decide, ?_⟩
  decide

theorem scan_exact_cover_witness :
    (0 < srcTiled.th ∧ 0 < srcTiled.tw ∧ 0 < 4 ∧
      srcTiled.tw ∣ srcTiled.imagewidth ∧ srcTiled.th ∣ 4 ∧
      srcTiled.tw ∣ 4 ∧ 0 < srcTiled.imageheight / 4 ∧
      0 < srcTiled.imagewidth / 4) ∧
    ((∀ n : Nat, n ∈ scannedTiles srcTiled 4 4 (0 * 4) (0 * 4) ↔
      tileIntersects srcTiled n 4 4 (0 * 4) (0 * 4)) ∧
    (∀ pr pc, 0 * 4 ≤ pr → pr < 0 * 4 + 4 →
      0 * 4 ≤ pc → pc < 0 * 4 + 4 →
      ∃ yx ∈ scanList srcTiled 4 4 (0 * 4) (0 * 4),
        coversPx srcTiled yx.1 yx.2 pr pc ∧
        ∀ yx' ∈ scanList srcTiled 4 4 (0 * 4) (0 * 4),
          coversPx srcTiled yx'.1 yx'.2 pr pc → yx' = yx)) :=
  ⟨by decide, scan_exact_cover srcTiled 4 4 0 0 (by decide) (by decide)
    (by decide) (by decide) (by decide) (Or.inl (by decide))
    (Or.inl (by decide)) (by decide) (by decide)⟩

end Glymur

namespace Glymur

/- ## Claim C8: the `%`-arithmetic equals origin subtraction -/

set_option maxHeartbeats 1600000 in
/-- C8: for every scanned anchor of a destination tile, the slice bounds the
code computes with modular arithmetic (tiff.py lines 147-152:
`ulr % jth`, `(llr - 1) % jth + 1`, and the analogous column and
source-tile forms) equal the subtraction-based translation of the
intersection rectangle into the two local frames (intersection bound minus
destination tile origin, and minus source tile origin respectively). -/
theorem local_coords_eq_sub (t : TiffSource) (jth jtw jrow jcol y x : Nat)
    (hth : 0 < t.th) (htw : 0 < t.tw) (hw : t.tw ∣ t.imagewidth)
    (hmem : (y, x) ∈ scanList t jth jtw (jrow * jth) (jcol * jtw)) :
    ulr t (jrow * jth) y x % jth
        = ulr t (jrow * jth) y x - jrow * jth ∧
    (llr t jth (jrow * jth) y x - 1) % jth + 1
        = llr t jth (jrow * jth) y x - jrow * jth ∧
    ulc t (jcol * jtw) y x % jtw
        = ulc t (jcol * jtw) y x - jcol * jtw ∧
    (urc t jtw (jcol * jtw) y x - 1) % jtw + 1
        = urc t jtw (jcol * jtw) y x - jcol * jtw ∧
    ulr t (jrow * jth) y x % t.th
        = ulr t (jrow * jth) y x - tulr t y x ∧
    (llr t jth (jrow * jth) y x - 1) % t.th + 1
        = llr t jth (jrow * jth) y x - tulr t y x ∧
    ulc t (jcol * jtw) y x % t.tw
        = ulc t (jcol * jtw) y x - tulc t y x ∧
    (urc t jtw (jcol * jtw) y x - 1) % t.tw + 1
        = urc t jtw (jcol * jtw) y x - tulc t y x := by
  obtain ⟨h1, h2, h3, h4, h5⟩ :=
    (scanList_bounds t jth jtw jrow jcol hth htw) (y, x) hmem
  obtain ⟨d1, m1⟩ := tilenum_decomp t y x htw hw h5
  have eT : tulr t y x = y / t.th * t.th := by rw [tulr, tilenum, d1]
  have eC : tulc t y x = x / t.tw * t.tw := by rw [tulc, tilenum, m1]
  have hby := div_mul_bounds y t.th hth
  have hbx := div_mul_bounds x t.tw htw
  have hU : ulr t (jrow * jth) y x
      = max (jrow * jth) (y / t.th * t.th) := by rw [ulr, eT]
  have hL : llr t jth (jrow * jth) y x
      = min (jrow * jth + jth) (y / t.th * t.th + t.th) := by rw [llr, eT]
  have hUc : ulc t (jcol * jtw) y x
      = max (jcol * jtw) (x / t.tw * t.tw) := by rw [ulc, eC]
  have hRc : urc t jtw (jcol * jtw) y x
      = min (jcol * jtw + jtw) (x / t.tw * t.tw + t.tw) := by rw [urc, eC]
  have n1 : ulr t (jrow * jth) y x % jth
      = ulr t (jrow * jth) y x - jrow * jth :=
    mod_eq_sub_of_between (by omega) (by omega)
  have n2 : (llr t jth (jrow * jth) y x - 1) % jth
      = llr t jth (jrow * jth) y x - 1 - jrow * jth :=
    mod_eq_sub_of_between (by omega) (by omega)
  have n3 : ulc t (jcol * jtw) y x % jtw
      = ulc t (jcol * jtw) y x - jcol * jtw :=
    mod_eq_sub_of_between (by omega) (by omega)
  have n4 : (urc t jtw (jcol * jtw) y x - 1) % jtw
      = urc t jtw (jcol * jtw) y x - 1 - jcol * jtw :=
    mod_eq_sub_of_between (by omega) (by omega)
  have n5 : ulr t (jrow * jth) y x % t.th
      = ulr t (jrow * jth) y x - y / t.th * t.th :=
    mod_eq_sub_of_between (q := y / t.th) (by omega) (by omega)
  have n6 : (llr t jth (jrow * jth) y x - 1) % t.th
      = llr t jth (jrow * jth) y x - 1 - y / t.th * t.th :=
    mod_eq_sub_of_between (q := y / t.th) (by omega) (by omega)
  have n7 : ulc t (jcol * jtw) y x % t.tw
      = ulc t (jcol * jtw) y x - x / t.tw * t.tw :=
    mod_eq_sub_of_between (q := x / t.tw) (by omega) (by omega)
  have n8 : (urc t jtw (jcol * jtw) y x - 1) % t.tw
      = urc t jtw (jcol * jtw) y x - 1 - x / t.tw * t.tw :=
    mod_eq_sub_of_between (q := x / t.tw) (by omega) (by omega)
  rw [eT, eC]
  refine ⟨n1, by rw [n2]; omega, n3, by rw [n4]; omega,
    by rw [n5], by rw [n6]; omega, by rw [n7], by rw [n8]; omega⟩

theorem local_coords_eq_sub_witness :
    ((0 : Nat) < srcTiled.th ∧ (0 : Nat) < srcTiled.tw ∧
      srcTiled.tw ∣ srcTiled.imagewidth ∧
      (2, 2) ∈ scanList srcTiled 4 4 (0 * 4) (0 * 4)) ∧
    (ulr srcTiled (0 * 4) 2 2 % 4 = ulr srcTiled (0 * 4) 2 2 - 0 * 4 ∧
    (llr srcTiled 4 (0 * 4) 2 2 - 1) % 4 + 1
        = llr srcTiled 4 (0 * 4) 2 2 - 0 * 4 ∧
    ulc srcTiled (0 * 4) 2 2 % 4 = ulc srcTiled (0 * 4) 2 2 - 0 * 4 ∧
    (urc srcTiled 4 (0 * 4) 2 2 - 1) % 4 + 1
        = urc srcTiled 4 (0 * 4) 2 2 - 0 * 4 ∧
    ulr srcTiled (0 * 4) 2 2 % srcTiled.th
        = ulr srcTiled (0 * 4) 2 2 - tulr srcTiled 2 2 ∧
    (llr srcTiled 4 (0 * 4) 2 2 - 1) % srcTiled.th + 1
        = llr srcTiled 4 (0 * 4) 2 2 - tulr srcTiled 2 2 ∧
    ulc srcTiled (0 * 4) 2 2 % srcTiled.tw
        = ulc srcTiled (0 * 4) 2 2 - tulc srcTiled 2 2 ∧
    (urc srcTiled 4 (0 * 4) 2 2 - 1) % srcTiled.tw + 1
        = urc srcTiled 4 (0 * 4) 2 2 - tulc srcTiled 2 2) :=
  ⟨⟨by decide, by decide, by decide, by decide⟩,
    local_coords_eq_sub srcTiled 4 4 0 0 2 2 (by decide) (by decide)
      (by decide) (by decide)⟩

end Glymur
